import Mathlib

/-!
Verification development for the BiDoc bidirectional cross-reference engine
(`src/bidoc.ts`).

The engine is shallowly embedded: the mutable object graph of the TypeScript
class (`Definition` objects shared between the `name2def` / `id2def` maps, with
references pushed into `Definition.refs` in place) is modelled as explicit
state passing over a `BiDoc` record.  Definitions live in an indexed store
(`BiDoc.defs`); the JavaScript object links `Reference.def` and the map values
of `name2def` / `id2def` become indices into that store.  JavaScript `Map`s are
modelled as insertion-ordered association lists with `Map.set` overwrite-in-
place semantics, so `forEach` iteration order is list order.  Throwing is
modelled with `Except String`.

The marker parser (`BiParser`, a separate module the spec treats as a black
box) is modelled abstractly: each render stage takes the parser's result — a
fragment sequence plus matches that point into it by index — as input.
-/

/-- Opaque location handle attached to a fragment; the core never inspects it,
so it is modelled as an abstract token. -/
abbrev Position := Nat

/-- The `type` field of a `Reference`: `"explicit" | "escaped" | "implicit"`. -/
inductive RefType where
  | explicit
  | escaped
  | implicit
deriving DecidableEq

/-- A contiguous slice of document text plus the `skip` flag and position. -/
structure Fragment where
  content : String
  skip : Bool
  position : Position
deriving DecidableEq

/-- One occurrence pointing at a definition.  The source's `ref.def` object
link is modelled by the index `defIdx` into `BiDoc.defs` together with the
snapshot `defId` of the target's `id` (ids are final before any reference is
created, so the snapshot agrees with `ref.def.id`); `ref.fragment` is modelled
by the index `fragIdx` into the current document's fragment sequence. -/
structure Reference where
  defIdx : Nat
  defId : String
  path : String
  fragIdx : Nat
  type : RefType
  index : Int
  name : String
deriving DecidableEq

/-- One canonical concept.  The source field `alias` is a Lean keyword, hence
`aliases` here. -/
structure Definition where
  name : String
  aliases : List String
  id : String
  refs : List Reference
deriving DecidableEq

/-- The state of a `BiDoc` engine instance: the definition store plus the two
registry maps (values are indices into `defs`) and the two pluggable
identifier generators. -/
structure BiDoc where
  defs : List Definition
  name2def : List (String × Nat)
  id2def : List (String × Nat)
  defIdGenerator : String → String
  refIdGenerator : Reference → String

def dummyFragment : Fragment := { content := "", skip := false, position := 0 }

def dummyDef : Definition := { name := "", aliases := [], id := "", refs := [] }

/-- JavaScript `Map.get`. -/
def mapGet (m : List (String × Nat)) (k : String) : Option Nat :=
  match m with
  | [] => none
  | p :: rest => if p.1 == k then some p.2 else mapGet rest k

/-- JavaScript `Map.has`. -/
def mapHas (m : List (String × Nat)) (k : String) : Bool :=
  match m with
  | [] => false
  | p :: rest => p.1 == k || mapHas rest k

/-- JavaScript `Map.set`: overwrite in place if the key is present (keeping its
insertion position), else append. -/
def mapSet (m : List (String × Nat)) (k : String) (v : Nat) : List (String × Nat) :=
  match m with
  | [] => [(k, v)]
  | p :: rest => if p.1 == k then (k, v) :: rest else p :: mapSet rest k v

/-- Update the element at an index, leaving the list unchanged when out of
range (models in-place mutation of the object at that store index). -/
def modifyAt : List α → Nat → (α → α) → List α
  | [], _, _ => []
  | a :: as, 0, f => f a :: as
  | a :: as, n + 1, f => a :: modifyAt as n f

/-- `forEach` with a callback that can throw: fold that stops at the first
error. -/
def exceptFoldl (f : σ → α → Except ε σ) : σ → List α → Except ε σ
  | s, [] => Except.ok s
  | s, a :: as =>
    match f s a with
    | Except.error e => Except.error e
    | Except.ok s' => exceptFoldl f s' as

/-- `refs.at(-1)?.index ?? -1`: the index of the last recorded reference, or
`-1` when none was recorded yet. -/
def lastIndex (refs : List Reference) : Int :=
  match refs.getLast? with
  | some r => r.index
  | none => -1

/-- The constructor.  The `uslug` slugifier is an external npm dependency and
is modelled as the parameter `slug`; `defIdGen?` / `refIdGen?` model the
optional `options` overrides. -/
def mkBiDoc (slug : String → String) (defIdGen? : Option (String → String))
    (refIdGen? : Option (Reference → String)) : BiDoc :=
  { defs := []
    name2def := []
    id2def := []
    defIdGenerator := defIdGen?.getD (fun name => slug name)
    refIdGenerator :=
      refIdGen?.getD (fun ref => ref.defId ++ "-ref-" ++ toString (ref.index + 1)) }

/-- A definition descriptor as produced by `BiParser.parseDefinition` (only
the fields the engine reads). -/
structure ParsedDef where
  name : String
  aliases : List String
  id : String
deriving DecidableEq

/-- `if (d.id.length == 0) d.id = this.defIdGenerator(d.name)`. -/
def assignedId (st : BiDoc) (d : ParsedDef) : String :=
  if d.id.length == 0 then st.defIdGenerator d.name else d.id

/-- The per-parsed-definition body of `collectDefinition`: default the id,
check `name` / `id` / every alias against the registry (throwing on the first
collision), then register the definition under its name, its id and every
alias. -/
def collectOne (st : BiDoc) (path : String) (d : ParsedDef) : Except String BiDoc :=
  let id := assignedId st d
  if mapHas st.name2def d.name then
    Except.error ("Duplicate definition name: " ++ d.name ++ " in file " ++ path)
  else if mapHas st.id2def id then
    Except.error ("Duplicate definition id: " ++ id ++ " in file " ++ path)
  else
    match d.aliases.find? (fun a => mapHas st.name2def a) with
    | some a =>
      Except.error ("Duplicate definition name: " ++ a ++ " in file " ++ path)
    | none =>
      let idx := st.defs.length
      let nd : Definition := { name := d.name, aliases := d.aliases, id := id, refs := [] }
      Except.ok
        { st with
          defs := st.defs ++ [nd]
          name2def := d.aliases.foldl (fun m a => mapSet m a idx) (mapSet st.name2def d.name idx)
          id2def := mapSet st.id2def id idx }

/-- `collectDefinition` after the parser call: iterate the parsed definitions
in order. -/
def collectDefs (st : BiDoc) (path : String) (ds : List ParsedDef) : Except String BiDoc :=
  exceptFoldl (fun s d => collectOne s path d) st ds

/-- A whole run of `collectDefinition` calls, one per `(path, parsed defs)`
batch. -/
def collectRun (st : BiDoc) (batches : List (String × List ParsedDef)) : Except String BiDoc :=
  exceptFoldl (fun s b => collectDefs s b.1 b.2) st batches

/-- The two marker kinds recognised by `parseExplicitOrEscapedReference`. -/
inductive ERType where
  | explicit
  | escaped
deriving DecidableEq

/-- One match returned by `parseExplicitOrEscapedReference`: the parser-
resolved target definition (`r.def`, as a store index) and the matched
fragment (`r.fragment`, as an index into the result's fragment sequence). -/
structure ERMatch where
  defIdx : Nat
  fragIdx : Nat
  type : ERType
deriving DecidableEq

/-- The result of `parseExplicitOrEscapedReference`. -/
structure ERParseResult where
  fragments : List Fragment
  refs : List ERMatch
deriving DecidableEq

/-- `r.fragment.content.slice(3, -2)` — the marker text with the leading three
and trailing two delimiter characters removed. -/
def erInner (frags : List Fragment) (m : ERMatch) : String :=
  (((frags.getD m.fragIdx dummyFragment).content.drop 3).dropRight 2)

/-- `r.def.refs.push(ref)` on the definition at store index `i`. -/
def pushRef (st : BiDoc) (i : Nat) (ref : Reference) : BiDoc :=
  { st with defs := modifyAt st.defs i (fun d => { d with refs := d.refs ++ [ref] }) }

/-- The per-match body of `renderExplicitOrEscapedReference`: build the
`Reference` (escaped reuses the last index and takes the raw slice as name;
explicit advances the index and takes the name of the `id2def` lookup, which
throws when the identifier is dangling), push it onto the target's `refs`, and
rewrite the matched fragment (explicit through the renderer, escaped to just
the name). -/
def renderERStep (path : String) (renderer : Reference → String)
    (acc : BiDoc × List Fragment) (m : ERMatch) : Except String (BiDoc × List Fragment) :=
  let st := acc.1
  let frags := acc.2
  let frag := frags.getD m.fragIdx dummyFragment
  let d := st.defs.getD m.defIdx dummyDef
  match m.type with
  | ERType.escaped =>
    let ref : Reference :=
      { defIdx := m.defIdx, defId := d.id, path := path, fragIdx := m.fragIdx,
        type := RefType.escaped, index := lastIndex d.refs, name := erInner frags m }
    Except.ok (pushRef st m.defIdx ref, frags.set m.fragIdx { frag with content := ref.name })
  | ERType.explicit =>
    match mapGet st.id2def (erInner frags m) with
    | none =>
      -- the source's non-null assertion `this.id2def.get(...)!.name` fails at
      -- run time with a TypeError when the identifier is absent
      Except.error "TypeError: Cannot read properties of undefined (reading name)"
    | some k =>
      let ref : Reference :=
        { defIdx := m.defIdx, defId := d.id, path := path, fragIdx := m.fragIdx,
          type := RefType.explicit, index := lastIndex d.refs + 1,
          name := (st.defs.getD k dummyDef).name }
      Except.ok (pushRef st m.defIdx ref, frags.set m.fragIdx { frag with content := renderer ref })

/-- `renderExplicitOrEscapedReference` after the parser call. -/
def renderER (st : BiDoc) (path : String) (res : ERParseResult)
    (renderer : Reference → String) : Except String (BiDoc × List Fragment) :=
  exceptFoldl (renderERStep path renderer) (st, res.fragments) res.refs

/-- The result of `parseImplicitReference`: the matched fragments are elements
of the fragment sequence, so `refs` holds their indices. -/
structure ImplParseResult where
  fragments : List Fragment
  refs : List Nat
deriving DecidableEq

/-- The per-match body of `renderImplicitReference`: every implicit match
advances the ordinal (`lastIndex + 1`), is pushed onto `def.refs`, and the
matched fragment's content is replaced by the renderer's output. -/
def renderImplStep (path : String) (defIdx : Nat) (renderer : Reference → String)
    (acc : BiDoc × List Fragment) (fragIdx : Nat) : BiDoc × List Fragment :=
  let st := acc.1
  let frags := acc.2
  let d := st.defs.getD defIdx dummyDef
  let frag := frags.getD fragIdx dummyFragment
  let ref : Reference :=
    { defIdx := defIdx, defId := d.id, path := path, fragIdx := fragIdx,
      type := RefType.implicit, index := lastIndex d.refs + 1, name := frag.content }
  (pushRef st defIdx ref, frags.set fragIdx { frag with content := renderer ref })

/-- `renderImplicitReference` after the parser call (the source's `name`
argument is consumed by the parser collaborator and is not read by the loop
itself). -/
def renderImplicitReference (st : BiDoc) (path : String) (res : ImplParseResult)
    (defIdx : Nat) (renderer : Reference → String) : BiDoc × List Fragment :=
  res.refs.foldl (renderImplStep path defIdx renderer) (st, res.fragments)

/-- One match returned by `parseDefinitionFromFragments`: a parsed definition
descriptor whose `fragment` is the element of the fragment sequence at
`fragIdx`. -/
structure DefMatch where
  pdef : ParsedDef
  fragIdx : Nat
deriving DecidableEq

/-- The result of `parseDefinitionFromFragments`. -/
structure DefParseResult where
  fragments : List Fragment
  defs : List DefMatch
deriving DecidableEq

/-- `renderDefinition`: default each parsed definition's id, then overwrite
its fragment's content with the renderer's output.  The registry is not
touched. -/
def renderDefinition (gen : String → String) (res : DefParseResult)
    (renderer : ParsedDef → String) : List Fragment :=
  res.defs.foldl
    (fun frags m =>
      let d := m.pdef
      let d' : ParsedDef :=
        { d with id := if d.id.length == 0 then gen d.name else d.id }
      let frag := frags.getD m.fragIdx dummyFragment
      frags.set m.fragIdx { frag with content := renderer d' })
    res.fragments

/-- The `BiParser` collaborator (a black box for the core): each function maps
a fragment sequence (plus, where relevant, the registry) to matches and an
updated fragment sequence. -/
structure BiParser where
  parseDefinitionFromFragments : List Fragment → String → DefParseResult
  parseExplicitOrEscapedReference :
    List Fragment → String → List (String × Nat) → List (String × Nat) → ERParseResult
  parseImplicitReference : List Fragment → String → ImplParseResult

/-- `renderText`: wrap the text as one initial non-skip fragment, render
definitions, render explicit/escaped references, render implicit references
once per `name2def` entry in insertion order, and join the final fragment
contents. -/
def renderText (P : BiParser) (st : BiDoc) (path s : String) (position : Position)
    (defRenderer : ParsedDef → String) (refRenderer : Reference → String) :
    Except String (BiDoc × String) :=
  let fragments0 : List Fragment := [{ content := s, skip := false, position := position }]
  let fragments1 :=
    renderDefinition st.defIdGenerator (P.parseDefinitionFromFragments fragments0 path) defRenderer
  match renderER st path
      (P.parseExplicitOrEscapedReference fragments1 path st.name2def st.id2def) refRenderer with
  | Except.error e => Except.error e
  | Except.ok (st1, fragments2) =>
    let final :=
      st1.name2def.foldl
        (fun acc entry =>
          renderImplicitReference acc.1 path (P.parseImplicitReference acc.2 entry.1)
            entry.2 refRenderer)
        (st1, fragments2)
    Except.ok (final.1, String.join (final.2.map (fun f => f.content)))

/-- Modelled from the spec's own wording (document rendering pipeline): wrap
the whole document as one initial fragment, then apply, strictly in this
order, definition rendering, explicit/escaped reference rendering, and
implicit reference rendering once per registered name/alias in registry
iteration order; concatenating the final fragment contents yields the rendered
document.  Written for comparison against `renderText`, which is translated
from the source. -/
def renderTextSpec (P : BiParser) (st : BiDoc) (path s : String) (position : Position)
    (defRenderer : ParsedDef → String) (refRenderer : Reference → String) :
    Except String (BiDoc × String) :=
  let initial : List Fragment := [{ content := s, skip := false, position := position }]
  let afterDefs :=
    renderDefinition st.defIdGenerator (P.parseDefinitionFromFragments initial path) defRenderer
  match renderER st path
      (P.parseExplicitOrEscapedReference afterDefs path st.name2def st.id2def) refRenderer with
  | Except.error e => Except.error e
  | Except.ok (stage2State, stage2Frags) =>
    let final :=
      stage2State.name2def.foldl
        (fun acc entry =>
          renderImplicitReference acc.1 path (P.parseImplicitReference acc.2 entry.1)
            entry.2 refRenderer)
        (stage2State, stage2Frags)
    Except.ok (final.1, String.join (final.2.map (fun f => f.content)))

/-- The `{ id } | { name }` options argument of `getReverseRefs`. -/
inductive RefQuery where
  | byId (id : String)
  | byName (name : String)
deriving DecidableEq

/-- `JSON.stringify(options)` for the not-found message (modelled without
character escaping inside the payload). -/
def reprQuery : RefQuery → String
  | RefQuery.byId i => "\x7b\"id\":\"" ++ i ++ "\"\x7d"
  | RefQuery.byName n => "\x7b\"name\":\"" ++ n ++ "\"\x7d"

/-- The registry lookup of `getReverseRefs`: `id2def` for an id query,
`name2def` for a name query. -/
def lookupIdx (st : BiDoc) (q : RefQuery) : Option Nat :=
  match q with
  | RefQuery.byId i => mapGet st.id2def i
  | RefQuery.byName n => mapGet st.name2def n

/-- `getReverseRefs`: look the definition up by id or by name/alias, throw a
not-found error when absent, else map every recorded reference in stored order
to `path + "#" + refIdGenerator(ref)`. -/
def getReverseRefs (st : BiDoc) (q : RefQuery) : Except String (List String) :=
  match (lookupIdx st q).bind (fun k => st.defs.get? k) with
  | none => Except.error ("Definition not found: " ++ reprQuery q)
  | some d => Except.ok (d.refs.map (fun ref => ref.path ++ "#" ++ st.refIdGenerator ref))

/-- The primary name together with the aliases of a definition. -/
def defStrings (d : Definition) : List String :=
  d.name :: d.aliases

/-! ### Helper lemmas about the list and map primitives -/

theorem modifyAt_length (l : List α) (i : Nat) (f : α → α) :
    (modifyAt l i f).length = l.length := by
  induction l generalizing i with
  | nil => rfl
  | cons a as ih =>
    cases i with
    | zero => rfl
    | succ n => simp [modifyAt, ih]

theorem modifyAt_getD_self (l : List α) (i : Nat) (f : α → α) (d : α)
    (h : i < l.length) : (modifyAt l i f).getD i d = f (l.getD i d) := by
  induction l generalizing i with
  | nil => simp at h
  | cons a as ih =>
    cases i with
    | zero => rfl
    | succ n =>
      simp only [modifyAt, List.getD_cons_succ]
      exact ih n (by simpa using h)

theorem getD_concat_length (l : List α) (a d : α) :
    (l ++ [a]).getD l.length d = a := by
  induction l with
  | nil => rfl
  | cons x xs ih => exact ih

theorem lastIndex_concat (refs : List Reference) (r : Reference) :
    lastIndex (refs ++ [r]) = r.index := by
  simp [lastIndex, List.getLast?_concat]

theorem mapGet_set (m : List (String × Nat)) (k k2 : String) (v : Nat) :
    mapGet (mapSet m k2 v) k = if k2 == k then some v else mapGet m k := by
  induction m with
  | nil => simp [mapSet, mapGet]
  | cons p rest ih =>
    simp only [mapSet]
    by_cases hp : p.1 = k2
    · by_cases hk : k2 = k
      · simp [hp, hk, mapGet]
      · have hpk : ¬ p.1 = k := by rw [hp]; exact hk
        simp [hp, hk, hpk, mapGet]
    · by_cases hk : p.1 = k
      · have hk2 : ¬ k2 = k := fun hc => hp (by rw [hk, hc])
        have hkk2 : ¬ k = k2 := fun hc => hk2 hc.symm
        simp [hp, hk, hk2, hkk2, mapGet]
      · simp [hp, hk, mapGet, ih]

theorem mapGet_set_self (m : List (String × Nat)) (k : String) (v : Nat) :
    mapGet (mapSet m k v) k = some v := by
  simp [mapGet_set]

theorem mapHas_eq_isSome (m : List (String × Nat)) (k : String) :
    mapHas m k = (mapGet m k).isSome := by
  induction m with
  | nil => rfl
  | cons p rest ih =>
    by_cases h : p.1 = k <;> simp [mapHas, mapGet, h, ih]

theorem mapHas_set_mono (m : List (String × Nat)) (k k2 : String) (v : Nat)
    (h : mapHas m k = true) : mapHas (mapSet m k2 v) k = true := by
  rw [mapHas_eq_isSome, mapGet_set]
  by_cases hk : k2 = k
  · simp [hk]
  · rw [if_neg (by simpa using hk), ← mapHas_eq_isSome]
    exact h

theorem mapHas_set_self (m : List (String × Nat)) (k : String) (v : Nat) :
    mapHas (mapSet m k v) k = true := by
  rw [mapHas_eq_isSome, mapGet_set_self]
  rfl

theorem mapGet_foldlSet_preserve (as : List String) (k : String) (v : Nat) :
    ∀ m : List (String × Nat), mapGet m k = some v →
      mapGet (as.foldl (fun m a => mapSet m a v) m) k = some v := by
  induction as with
  | nil => intro m h; exact h
  | cons a rest ih =>
    intro m h
    refine ih (mapSet m a v) ?_
    rw [mapGet_set]
    by_cases hk : a = k
    · simp [hk]
    · rw [if_neg (by simpa using hk)]
      exact h

theorem mapGet_foldlSet_mem (as : List String) (a : String) (v : Nat) :
    ∀ m : List (String × Nat), a ∈ as →
      mapGet (as.foldl (fun m a => mapSet m a v) m) a = some v := by
  induction as with
  | nil => intro m ha; simp at ha
  | cons b rest ih =>
    intro m ha
    rcases List.mem_cons.mp ha with hb | hrest
    · subst hb
      exact mapGet_foldlSet_preserve rest a v (mapSet m a v) (mapGet_set_self m a v)
    · exact ih (mapSet m b v) hrest

theorem mapHas_foldlSet_mono (as : List String) (k : String) (v : Nat) :
    ∀ m : List (String × Nat), mapHas m k = true →
      mapHas (as.foldl (fun m a => mapSet m a v) m) k = true := by
  induction as with
  | nil => intro m h; exact h
  | cons a rest ih =>
    intro m h
    exact ih (mapSet m a v) (mapHas_set_mono m k a v h)

theorem exceptFoldl_inv {σ α ε : Type _} (f : σ → α → Except ε σ) (P : σ → Prop)
    (hf : ∀ s a s', f s a = Except.ok s' → P s → P s') :
    ∀ (l : List α) (s s' : σ), exceptFoldl f s l = Except.ok s' → P s → P s' := by
  intro l
  induction l with
  | nil =>
    intro s s' h hp
    simp only [exceptFoldl] at h
    cases h
    exact hp
  | cons a as ih =>
    intro s s' h hp
    simp only [exceptFoldl] at h
    cases hfa : f s a with
    | error e => rw [hfa] at h; cases h
    | ok s1 =>
      rw [hfa] at h
      exact ih s1 s' h (hf s a s1 hfa hp)

/-! ### Index assignment in explicit / escaped reference rendering -/

/-- Claim C1: in `renderExplicitOrEscapedReference`, each processed match is
appended to the target definition's `refs`; an explicit match is assigned the
last recorded index plus one, an escaped match the last recorded index
unchanged, and in both cases the appended reference becomes the new last
recorded reference (so after an escaped match the last index is unchanged and
a later ordinal-advancing reference still receives the previous explicit index
plus one — no index value is skipped). -/
theorem renderERStep_index (path : String) (renderer : Reference → String)
    (st : BiDoc) (frags : List Fragment) (m : ERMatch)
    (h : m.defIdx < st.defs.length)
    (hres : m.type = ERType.explicit → (mapGet st.id2def (erInner frags m)).isSome = true) :
    ∃ st' frags' ref,
      renderERStep path renderer (st, frags) m = Except.ok (st', frags') ∧
      (st'.defs.getD m.defIdx dummyDef).refs
        = (st.defs.getD m.defIdx dummyDef).refs ++ [ref] ∧
      ref.index
        = (match m.type with
           | ERType.escaped => lastIndex (st.defs.getD m.defIdx dummyDef).refs
           | ERType.explicit => lastIndex (st.defs.getD m.defIdx dummyDef).refs + 1) ∧
      lastIndex (st'.defs.getD m.defIdx dummyDef).refs = ref.index := by
  obtain ⟨di, fi, ty⟩ := m
  simp only at h hres ⊢
  cases ty with
  | escaped =>
    refine
      ⟨_, _,
        { defIdx := di, defId := (st.defs.getD di dummyDef).id, path := path,
          fragIdx := fi, type := RefType.escaped,
          index := lastIndex (st.defs.getD di dummyDef).refs,
          name := erInner frags { defIdx := di, fragIdx := fi, type := ERType.escaped } },
        rfl, ?_, rfl, ?_⟩
    · simp only [pushRef]
      rw [modifyAt_getD_self st.defs di _ dummyDef h]
    · simp only [pushRef]
      rw [modifyAt_getD_self st.defs di _ dummyDef h]
      exact lastIndex_concat _ _
  | explicit =>
    obtain ⟨k, hk⟩ := Option.isSome_iff_exists.mp (hres rfl)
    have hstep : renderERStep path renderer (st, frags)
          { defIdx := di, fragIdx := fi, type := ERType.explicit }
        = Except.ok
            (pushRef st di
              { defIdx := di, defId := (st.defs.getD di dummyDef).id, path := path,
                fragIdx := fi, type := RefType.explicit,
                index := lastIndex (st.defs.getD di dummyDef).refs + 1,
                name := (st.defs.getD k dummyDef).name },
             frags.set fi
               { frags.getD fi dummyFragment with
                 content := renderer
                   { defIdx := di, defId := (st.defs.getD di dummyDef).id, path := path,
                     fragIdx := fi, type := RefType.explicit,
                     index := lastIndex (st.defs.getD di dummyDef).refs + 1,
                     name := (st.defs.getD k dummyDef).name } }) := by
      simp only [renderERStep]
      rw [hk]
    refine
      ⟨_, _,
        { defIdx := di, defId := (st.defs.getD di dummyDef).id, path := path,
          fragIdx := fi, type := RefType.explicit,
          index := lastIndex (st.defs.getD di dummyDef).refs + 1,
          name := (st.defs.getD k dummyDef).name },
        hstep, ?_, rfl, ?_⟩
    · simp only [pushRef]
      rw [modifyAt_getD_self st.defs di _ dummyDef h]
    · simp only [pushRef]
      rw [modifyAt_getD_self st.defs di _ dummyDef h]
      exact lastIndex_concat _ _

theorem pushRef_getD (st : BiDoc) (i : Nat) (r : Reference) (h : i < st.defs.length) :
    (pushRef st i r).defs.getD i dummyDef
      = { st.defs.getD i dummyDef with refs := (st.defs.getD i dummyDef).refs ++ [r] } := by
  simp only [pushRef]
  exact modifyAt_getD_self st.defs i _ dummyDef h

theorem pushRef_length (st : BiDoc) (i : Nat) (r : Reference) :
    (pushRef st i r).defs.length = st.defs.length := by
  simp only [pushRef]
  exact modifyAt_length _ _ _

theorem renderImplStep_fst (path : String) (defIdx : Nat) (renderer : Reference → String)
    (p : BiDoc × List Fragment) (fragIdx : Nat) :
    (renderImplStep path defIdx renderer p fragIdx).1
      = pushRef p.1 defIdx
          { defIdx := defIdx, defId := (p.1.defs.getD defIdx dummyDef).id, path := path,
            fragIdx := fragIdx, type := RefType.implicit,
            index := lastIndex (p.1.defs.getD defIdx dummyDef).refs + 1,
            name := (p.2.getD fragIdx dummyFragment).content } := rfl

/-- Claim C4: in `renderImplicitReference`, every implicit match is assigned
the index of the last recorded reference plus one and appended to the
definition's `refs`; in particular, starting from an empty `refs` list, two
occurrences receive indices `0` and `1`. -/
theorem renderImplicit_index (path : String) (renderer : Reference → String)
    (st : BiDoc) (frags : List Fragment) (defIdx fragIdx : Nat)
    (h : defIdx < st.defs.length) :
    (∃ ref,
      ((renderImplStep path defIdx renderer (st, frags) fragIdx).1.defs.getD defIdx dummyDef).refs
        = (st.defs.getD defIdx dummyDef).refs ++ [ref] ∧
      ref.index = lastIndex (st.defs.getD defIdx dummyDef).refs + 1) ∧
    ((st.defs.getD defIdx dummyDef).refs = [] → ∀ fragIdx2 : Nat,
      ((renderImplicitReference st path { fragments := frags, refs := [fragIdx, fragIdx2] }
          defIdx renderer).1.defs.getD defIdx dummyDef).refs.map (fun r => r.index)
        = [0, 1]) := by
  constructor
  · refine
      ⟨{ defIdx := defIdx, defId := (st.defs.getD defIdx dummyDef).id, path := path,
         fragIdx := fragIdx, type := RefType.implicit,
         index := lastIndex (st.defs.getD defIdx dummyDef).refs + 1,
         name := (frags.getD fragIdx dummyFragment).content }, ?_, rfl⟩
    simp only [renderImplStep_fst]
    rw [pushRef_getD st defIdx _ h]
  · intro hempty fragIdx2
    have h1 : defIdx < (renderImplStep path defIdx renderer (st, frags) fragIdx).1.defs.length := by
      simp only [renderImplStep_fst]
      rw [pushRef_length]
      exact h
    have e : (renderImplicitReference st path { fragments := frags, refs := [fragIdx, fragIdx2] }
        defIdx renderer).1
        = (renderImplStep path defIdx renderer
            (renderImplStep path defIdx renderer (st, frags) fragIdx) fragIdx2).1 := rfl
    rw [e]
    rw [renderImplStep_fst path defIdx renderer
        (renderImplStep path defIdx renderer (st, frags) fragIdx) fragIdx2]
    rw [pushRef_getD _ defIdx _ h1]
    simp only [renderImplStep_fst]
    rw [pushRef_getD st defIdx _ h, hempty]
    simp [lastIndex, lastIndex_concat]

/-- Claim C10: an escaped reference processed while the target's `refs` list is
empty is recorded with index `-1` (whose anchor under the default
`refIdGenerator` would be the definition's id followed by `-ref-0`), and the
next ordinal-advancing reference to that definition then receives index `0`. -/
theorem escaped_empty_refs (path : String) (renderer : Reference → String)
    (st : BiDoc) (frags : List Fragment) (m : ERMatch)
    (h : m.defIdx < st.defs.length)
    (ht : m.type = ERType.escaped)
    (hempty : (st.defs.getD m.defIdx dummyDef).refs = []) :
    ∃ st' frags' ref,
      renderERStep path renderer (st, frags) m = Except.ok (st', frags') ∧
      (st'.defs.getD m.defIdx dummyDef).refs = [ref] ∧
      ref.index = -1 ∧
      (∀ slug : String → String,
        (mkBiDoc slug none none).refIdGenerator ref
          = (st.defs.getD m.defIdx dummyDef).id ++ "-ref-0") ∧
      (∀ renderer2 : Reference → String, ∀ fragIdx2 : Nat,
        ((renderImplStep path m.defIdx renderer2 (st', frags') fragIdx2).1.defs.getD
            m.defIdx dummyDef).refs.map (fun r => r.index) = [-1, 0]) := by
  obtain ⟨di, fi, ty⟩ := m
  simp only at h ht hempty ⊢
  subst ht
  refine
    ⟨_, _,
      { defIdx := di, defId := (st.defs.getD di dummyDef).id, path := path,
        fragIdx := fi, type := RefType.escaped,
        index := lastIndex (st.defs.getD di dummyDef).refs,
        name := erInner frags { defIdx := di, fragIdx := fi, type := ERType.escaped } },
      rfl, ?_, ?_, ?_, ?_⟩
  · rw [pushRef_getD st di _ h, hempty]
    simp
  · rw [hempty]
    rfl
  · intro slug
    show ((st.defs.getD di dummyDef).id ++ "-ref-")
        ++ toString (lastIndex (st.defs.getD di dummyDef).refs + 1) = _
    rw [hempty, String.append_assoc]
    rfl
  · intro renderer2 fragIdx2
    have h1 : di < (pushRef st di
        { defIdx := di, defId := (st.defs.getD di dummyDef).id, path := path,
          fragIdx := fi, type := RefType.escaped,
          index := lastIndex (st.defs.getD di dummyDef).refs,
          name := erInner frags { defIdx := di, fragIdx := fi, type := ERType.escaped } }).defs.length := by
      rw [pushRef_length]
      exact h
    simp only [renderImplStep_fst]
    rw [pushRef_getD _ di _ h1]
    rw [pushRef_getD st di _ h, hempty]
    simp [lastIndex, lastIndex_concat]

/-- Claim C8: during explicit/escaped reference rendering, an explicit marker
whose inner identifier (the fragment content with the first three and last two
characters removed) is absent from `id2def` makes the operation fail by
throwing, instead of producing a rendered reference. -/
theorem explicit_dangling (path : String) (renderer : Reference → String)
    (st : BiDoc) (frags : List Fragment) (m : ERMatch)
    (ht : m.type = ERType.explicit)
    (hnone : mapGet st.id2def (erInner frags m) = none) :
    (∃ e, renderERStep path renderer (st, frags) m = Except.error e) ∧
    (∀ rest : List ERMatch, ∃ e,
      renderER st path { fragments := frags, refs := m :: rest } renderer
        = Except.error e) := by
  obtain ⟨di, fi, ty⟩ := m
  simp only at ht hnone ⊢
  subst ht
  have hstep : renderERStep path renderer (st, frags)
      { defIdx := di, fragIdx := fi, type := ERType.explicit }
      = Except.error "TypeError: Cannot read properties of undefined (reading name)" := by
    simp only [renderERStep]
    rw [hnone]
  refine
    ⟨⟨"TypeError: Cannot read properties of undefined (reading name)", hstep⟩,
      fun rest => ⟨"TypeError: Cannot read properties of undefined (reading name)", ?_⟩⟩
  simp only [renderER, exceptFoldl, hstep]

/-- Claim C2: `collectDefinition` throws, with a message naming the offending
name or id and the source path, exactly when the parsed definition's name is
already in `name2def`, its assigned id is already in `id2def`, or one of its
aliases is already in `name2def`; with no collision it registers the
definition under its name, its assigned id, and every alias. -/
theorem collectOne_spec (st : BiDoc) (path : String) (d : ParsedDef) :
    ((mapHas st.name2def d.name = true ∨ mapHas st.id2def (assignedId st d) = true ∨
        ∃ a ∈ d.aliases, mapHas st.name2def a = true) →
      ∃ e, collectOne st path d = Except.error e ∧
        ((∃ s, (s = d.name ∨ s ∈ d.aliases) ∧
            e = "Duplicate definition name: " ++ s ++ " in file " ++ path) ∨
          e = "Duplicate definition id: " ++ assignedId st d ++ " in file " ++ path)) ∧
    ((mapHas st.name2def d.name = false ∧ mapHas st.id2def (assignedId st d) = false ∧
        ∀ a ∈ d.aliases, mapHas st.name2def a = false) →
      ∃ st', collectOne st path d = Except.ok st' ∧
        mapGet st'.name2def d.name = some st.defs.length ∧
        mapGet st'.id2def (assignedId st d) = some st.defs.length ∧
        (∀ a ∈ d.aliases, mapGet st'.name2def a = some st.defs.length) ∧
        st'.defs.getD st.defs.length dummyDef
          = { name := d.name, aliases := d.aliases, id := assignedId st d, refs := [] }) := by
  constructor
  · intro hcol
    by_cases h1 : mapHas st.name2def d.name = true
    · refine ⟨_, ?_, Or.inl ⟨d.name, Or.inl rfl, rfl⟩⟩
      simp only [collectOne]
      rw [if_pos h1]
    · by_cases h2 : mapHas st.id2def (assignedId st d) = true
      · refine ⟨_, ?_, Or.inr rfl⟩
        simp only [collectOne]
        rw [if_neg h1, if_pos h2]
      · cases hfind : d.aliases.find? (fun a => mapHas st.name2def a) with
        | some a =>
          refine ⟨_, ?_, Or.inl ⟨a, Or.inr (List.mem_of_find?_eq_some hfind), rfl⟩⟩
          simp only [collectOne]
          rw [if_neg h1, if_neg h2, hfind]
        | none =>
          exfalso
          rcases hcol with hc | hc | ⟨a, ha, hc⟩
          · exact h1 hc
          · exact h2 hc
          · exact List.find?_eq_none.mp hfind a ha hc
  · rintro ⟨h1, h2, h3⟩
    have h1' : ¬ mapHas st.name2def d.name = true := by simp [h1]
    have h2' : ¬ mapHas st.id2def (assignedId st d) = true := by simp [h2]
    have hfind : d.aliases.find? (fun a => mapHas st.name2def a) = none :=
      List.find?_eq_none.mpr (fun a ha => by simp [h3 a ha])
    refine
      ⟨{ defs := st.defs
            ++ [{ name := d.name, aliases := d.aliases, id := assignedId st d, refs := [] }],
         name2def := d.aliases.foldl (fun m a => mapSet m a st.defs.length)
            (mapSet st.name2def d.name st.defs.length),
         id2def := mapSet st.id2def (assignedId st d) st.defs.length,
         defIdGenerator := st.defIdGenerator,
         refIdGenerator := st.refIdGenerator }, ?_, ?_, ?_, ?_, ?_⟩
    · simp only [collectOne]
      rw [if_neg h1', if_neg h2', hfind]
    · exact mapGet_foldlSet_preserve d.aliases d.name st.defs.length
        (mapSet st.name2def d.name st.defs.length)
        (mapGet_set_self st.name2def d.name st.defs.length)
    · exact mapGet_set_self st.id2def (assignedId st d) st.defs.length
    · intro a ha
      exact mapGet_foldlSet_mem d.aliases a st.defs.length
        (mapSet st.name2def d.name st.defs.length) ha
    · exact getD_concat_length st.defs _ dummyDef

/-- Invariant of the registry maintained by successful definition collection:
every registered definition's name/alias strings are keys of `name2def` and
its id a key of `id2def`; strings of distinct definitions are disjoint; ids
are pairwise distinct. -/
def RegistryInv (st : BiDoc) : Prop :=
  (∀ d ∈ st.defs, ∀ s ∈ defStrings d, mapHas st.name2def s = true) ∧
  (∀ d ∈ st.defs, mapHas st.id2def d.id = true) ∧
  List.Pairwise (fun d1 d2 => ∀ s ∈ defStrings d1, s ∉ defStrings d2) st.defs ∧
  (st.defs.map (fun d => d.id)).Nodup

theorem collectOne_inv (st st' : BiDoc) (path : String) (d : ParsedDef)
    (h : collectOne st path d = Except.ok st') (hinv : RegistryInv st) :
    RegistryInv st' := by
  obtain ⟨A, B, C, D⟩ := hinv
  simp only [collectOne] at h
  by_cases h1 : mapHas st.name2def d.name = true
  · rw [if_pos h1] at h
    simp at h
  · rw [if_neg h1] at h
    by_cases h2 : mapHas st.id2def (assignedId st d) = true
    · rw [if_pos h2] at h
      simp at h
    · rw [if_neg h2] at h
      cases hfind : d.aliases.find? (fun a => mapHas st.name2def a) with
      | some a =>
        rw [hfind] at h
        simp at h
      | none =>
        rw [hfind] at h
        rw [Except.ok.injEq] at h
        subst h
        have hfalse3 : ∀ a ∈ d.aliases, ¬ mapHas st.name2def a = true :=
          List.find?_eq_none.mp hfind
        refine ⟨?_, ?_, ?_, ?_⟩
        · intro dd hdd s hs
          rcases List.mem_append.mp hdd with hold | hnew
          · exact mapHas_foldlSet_mono d.aliases s st.defs.length _
              (mapHas_set_mono st.name2def s d.name st.defs.length (A dd hold s hs))
          · rw [List.mem_singleton] at hnew
            subst hnew
            rcases List.mem_cons.mp hs with hname | halias
            · subst hname
              exact mapHas_foldlSet_mono d.aliases d.name st.defs.length _
                (mapHas_set_self st.name2def d.name st.defs.length)
            · rw [mapHas_eq_isSome,
                mapGet_foldlSet_mem d.aliases s st.defs.length _ halias]
              rfl
        · intro dd hdd
          rcases List.mem_append.mp hdd with hold | hnew
          · exact mapHas_set_mono st.id2def dd.id (assignedId st d) st.defs.length (B dd hold)
          · rw [List.mem_singleton] at hnew
            subst hnew
            exact mapHas_set_self st.id2def (assignedId st d) st.defs.length
        · refine List.pairwise_append.mpr ⟨C, List.pairwise_singleton _ _, ?_⟩
          intro d1 hd1 d2 hd2 s hs1 hs2
          rw [List.mem_singleton] at hd2
          subst hd2
          rcases List.mem_cons.mp hs2 with hname | halias
          · subst hname
            exact h1 (A d1 hd1 d.name hs1)
          · exact hfalse3 s halias (A d1 hd1 s hs1)
        · rw [List.map_append]
          refine List.nodup_append.mpr ⟨D, List.nodup_singleton _, ?_⟩
          intro x hx hx2
          simp only [List.map_cons, List.map_nil, List.mem_singleton] at hx2
          subst hx2
          obtain ⟨dd, hdd, hid⟩ := List.mem_map.mp hx
          exact h2 (hid ▸ B dd hdd)

theorem collectDefs_inv (path : String) (ds : List ParsedDef) (st st' : BiDoc)
    (h : collectDefs st path ds = Except.ok st') (hinv : RegistryInv st) :
    RegistryInv st' := by
  unfold collectDefs at h
  exact exceptFoldl_inv (fun s d => collectOne s path d) RegistryInv
    (fun s d t hs => collectOne_inv s t path d hs) ds st st' h hinv

theorem collectRun_inv (batches : List (String × List ParsedDef)) (st st' : BiDoc)
    (h : collectRun st batches = Except.ok st') (hinv : RegistryInv st) :
    RegistryInv st' := by
  unfold collectRun at h
  exact exceptFoldl_inv (fun s b => collectDefs s b.1 b.2) RegistryInv
    (fun s b t hs => collectDefs_inv b.1 b.2 s t hs) batches st st' h hinv

theorem mkBiDoc_inv (slug : String → String) (dg : Option (String → String))
    (rg : Option (Reference → String)) : RegistryInv (mkBiDoc slug dg rg) := by
  refine ⟨?_, ?_, ?_, ?_⟩ <;> simp [mkBiDoc]

/-- Claim C3 (amended): after any sequence of `collectDefinition` calls that
all complete without throwing, name/alias strings belonging to two distinct
registered definitions are pairwise disjoint (no string is a name or alias of
two different definitions), and all registered definition ids are pairwise
distinct.  (Within a single definition the code does not rule out an alias
equal to its own name or a repeated alias — see the counterexample.) -/
theorem collectRun_disjoint (slug : String → String) (dg : Option (String → String))
    (rg : Option (Reference → String)) (batches : List (String × List ParsedDef))
    (st : BiDoc) (h : collectRun (mkBiDoc slug dg rg) batches = Except.ok st) :
    List.Pairwise (fun d1 d2 => ∀ s ∈ defStrings d1, s ∉ defStrings d2) st.defs ∧
    (st.defs.map (fun d => d.id)).Nodup :=
  ⟨(collectRun_inv batches (mkBiDoc slug dg rg) st h (mkBiDoc_inv slug dg rg)).2.2.1,
   (collectRun_inv batches (mkBiDoc slug dg rg) st h (mkBiDoc_inv slug dg rg)).2.2.2⟩

/-- Claim C3 counterexample: collecting a definition whose alias list repeats
its own primary name succeeds (all duplicate checks run before any
registration of the same definition), so the combined multiset of registered
names and aliases contains a duplicate string, contradicting the claim. -/
theorem collectDefs_self_alias_dup :
    (collectDefs (mkBiDoc (fun s => s) none none) "doc"
        [{ name := "x", aliases := ["x"], id := "i" }]).map
      (fun st => (st.defs.map defStrings).flatten) = Except.ok ["x", "x"]
    ∧ ¬ (["x", "x"] : List String).Nodup :=
  ⟨rfl, by decide⟩

/-- Claim C5: `renderText` wraps the input text as a single initial non-skip
fragment and applies exactly the three stages in this fixed order — definition
rendering, explicit/escaped reference rendering, then implicit reference
rendering once per `name2def` entry in registry insertion order — and returns
the concatenation of the final fragment contents; i.e. it coincides with the
pipeline as the specification words it. -/
theorem renderText_pipeline (P : BiParser) (st : BiDoc) (path s : String)
    (position : Position) (defRenderer : ParsedDef → String)
    (refRenderer : Reference → String) :
    renderText P st path s position defRenderer refRenderer
      = renderTextSpec P st path s position defRenderer refRenderer := rfl

theorem mapGet_mem (m : List (String × Nat)) (k : String) (v : Nat)
    (h : mapGet m k = some v) : ∃ p ∈ m, p.2 = v := by
  induction m with
  | nil => simp [mapGet] at h
  | cons p rest ih =>
    simp only [mapGet] at h
    by_cases hp : p.1 = k
    · rw [if_pos (by simpa using hp)] at h
      exact ⟨p, List.mem_cons_self p rest, (Option.some.injEq _ _).mp h⟩
    · rw [if_neg (by simpa using hp)] at h
      obtain ⟨q, hq, hqv⟩ := ih h
      exact ⟨q, List.mem_cons_of_mem p hq, hqv⟩

/-- Claim C6: `getReverseRefs` throws a not-found error exactly when the given
id (resp. name) is absent from `id2def` (resp. `name2def`); otherwise it
returns, for every recorded reference in stored order, the string
`path ++ "#" ++ refIdGenerator ref`. -/
theorem getReverseRefs_spec (st : BiDoc) (q : RefQuery)
    (hwfi : ∀ p ∈ st.id2def, p.2 < st.defs.length)
    (hwfn : ∀ p ∈ st.name2def, p.2 < st.defs.length) :
    (lookupIdx st q = none →
      getReverseRefs st q = Except.error ("Definition not found: " ++ reprQuery q)) ∧
    (∀ k, lookupIdx st q = some k →
      getReverseRefs st q
        = Except.ok ((st.defs.getD k dummyDef).refs.map
            (fun ref => ref.path ++ "#" ++ st.refIdGenerator ref))) := by
  constructor
  · intro hnone
    simp only [getReverseRefs, hnone, Option.bind]
  · intro k hk
    have hklt : k < st.defs.length := by
      cases q with
      | byId i =>
        simp only [lookupIdx] at hk
        obtain ⟨p, hp, hpk⟩ := mapGet_mem st.id2def i k hk
        exact hpk ▸ hwfi p hp
      | byName n =>
        simp only [lookupIdx] at hk
        obtain ⟨p, hp, hpk⟩ := mapGet_mem st.name2def n k hk
        exact hpk ▸ hwfn p hp
    have hget : st.defs.get? k = some (st.defs.getD k dummyDef) := by
      rw [List.getD_eq_getD_get?, List.get?_eq_getElem?]
      cases hx : st.defs[k]? with
      | none =>
        rw [List.getElem?_eq_none_iff] at hx
        exact absurd hklt (Nat.not_lt.mpr hx)
      | some v => rfl
    simp only [getReverseRefs, hk, Option.bind, hget]

/-- Claim C7: for a definition registered both under an id (in `id2def`) and
under a name or alias (in `name2def`), `getReverseRefs` by id and
`getReverseRefs` by that name return the same sequence of strings. -/
theorem getReverseRefs_id_name_agree (st : BiDoc) (i n : String) (k : Nat)
    (hk : k < st.defs.length)
    (h1 : mapGet st.id2def i = some k) (h2 : mapGet st.name2def n = some k) :
    getReverseRefs st (RefQuery.byId i) = getReverseRefs st (RefQuery.byName n) := by
  have hget : st.defs.get? k = some (st.defs.getD k dummyDef) := by
    rw [List.getD_eq_getD_get?, List.get?_eq_getElem?]
    cases hx : st.defs[k]? with
    | none =>
      rw [List.getElem?_eq_none_iff] at hx
      exact absurd hk (Nat.not_lt.mpr hx)
    | some v => rfl
  simp only [getReverseRefs, lookupIdx, h1, h2, Option.bind, hget]

/-- Claim C9: with no constructor overrides, the default `refIdGenerator` maps
a reference with definition id `D` and index `i` to `D ++ "-ref-" ++
toString (i + 1)` — so index `0` yields the anchor `D-ref-1` and index `1`
yields `D-ref-2` — and the default `defIdGenerator` is the slugification of
the definition's name. -/
theorem default_generators (slug : String → String) :
    (∀ ref : Reference, (mkBiDoc slug none none).refIdGenerator ref
        = ref.defId ++ "-ref-" ++ toString (ref.index + 1)) ∧
    (mkBiDoc slug none none).refIdGenerator
        { defIdx := 0, defId := "D", path := "p", fragIdx := 0,
          type := RefType.explicit, index := 0, name := "n" } = "D-ref-1" ∧
    (mkBiDoc slug none none).refIdGenerator
        { defIdx := 0, defId := "D", path := "p", fragIdx := 0,
          type := RefType.explicit, index := 1, name := "n" } = "D-ref-2" ∧
    (mkBiDoc slug none none).defIdGenerator = fun name => slug name :=
  ⟨fun _ => rfl, rfl, rfl, rfl⟩

/-! ### Concrete sample states and witnesses -/

def sampleRef : Reference :=
  { defIdx := 0, defId := "a1", path := "doc", fragIdx := 0,
    type := RefType.explicit, index := 0, name := "alpha" }

/-- A one-definition engine state whose definition has one recorded
reference. -/
def sampleSt : BiDoc :=
  { defs := [{ name := "alpha", aliases := ["beta"], id := "a1", refs := [sampleRef] }],
    name2def := [("alpha", 0), ("beta", 0)],
    id2def := [("a1", 0)],
    defIdGenerator := fun s => s,
    refIdGenerator := fun ref => ref.defId ++ "-ref-" ++ toString (ref.index + 1) }

/-- A one-definition engine state with no recorded references. -/
def sampleSt0 : BiDoc :=
  { defs := [{ name := "alpha", aliases := [], id := "a1", refs := [] }],
    name2def := [("alpha", 0)],
    id2def := [("a1", 0)],
    defIdGenerator := fun s => s,
    refIdGenerator := fun ref => ref.defId ++ "-ref-" ++ toString (ref.index + 1) }

def sampleFrags : List Fragment := [{ content := "[[#beta]]", skip := false, position := 0 }]

def sampleEsc : ERMatch := { defIdx := 0, fragIdx := 0, type := ERType.escaped }

theorem renderERStep_index_witness :
    sampleEsc.defIdx < sampleSt.defs.length ∧
    (sampleEsc.type = ERType.explicit →
      (mapGet sampleSt.id2def (erInner sampleFrags sampleEsc)).isSome = true) ∧
    (∃ st' frags' ref,
      renderERStep "doc" (fun r => r.name) (sampleSt, sampleFrags) sampleEsc
        = Except.ok (st', frags') ∧
      (st'.defs.getD sampleEsc.defIdx dummyDef).refs
        = (sampleSt.defs.getD sampleEsc.defIdx dummyDef).refs ++ [ref] ∧
      ref.index
        = (match sampleEsc.type with
           | ERType.escaped => lastIndex (sampleSt.defs.getD sampleEsc.defIdx dummyDef).refs
           | ERType.explicit =>
             lastIndex (sampleSt.defs.getD sampleEsc.defIdx dummyDef).refs + 1) ∧
      lastIndex (st'.defs.getD sampleEsc.defIdx dummyDef).refs = ref.index) :=
  ⟨by decide, by decide,
    renderERStep_index "doc" (fun r => r.name) sampleSt sampleFrags sampleEsc
      (by decide) (by decide)⟩

def freshEngine : BiDoc := mkBiDoc (fun s => s) none none

def c2Def : ParsedDef := { name := "x", aliases := ["y"], id := "" }

theorem collectOne_spec_witness :
    (mapHas freshEngine.name2def "x" = false ∧
     mapHas freshEngine.id2def (assignedId freshEngine c2Def) = false ∧
     ∀ a ∈ (["y"] : List String), mapHas freshEngine.name2def a = false) ∧
    (∃ st', collectOne freshEngine "doc" c2Def = Except.ok st' ∧
      mapGet st'.name2def "x" = some 0 ∧
      mapGet st'.id2def (assignedId freshEngine c2Def) = some 0 ∧
      (∀ a ∈ (["y"] : List String), mapGet st'.name2def a = some 0) ∧
      st'.defs.getD 0 dummyDef = { name := "x", aliases := ["y"], id := "x", refs := [] }) :=
  ⟨by decide, (collectOne_spec freshEngine "doc" c2Def).2 (by decide)⟩

/-- The state reached by collecting one definition named `x` with alias `y`
and no explicit id in a fresh engine. -/
def c3State : BiDoc :=
  { defs := [{ name := "x", aliases := ["y"], id := "x", refs := [] }],
    name2def := [("x", 0), ("y", 0)],
    id2def := [("x", 0)],
    defIdGenerator := fun name => (fun s => s) name,
    refIdGenerator := fun ref => ref.defId ++ "-ref-" ++ toString (ref.index + 1) }

theorem collectRun_disjoint_witness :
    collectRun (mkBiDoc (fun s => s) none none)
        [("doc", [{ name := "x", aliases := ["y"], id := "" }])] = Except.ok c3State ∧
    (List.Pairwise (fun d1 d2 => ∀ s ∈ defStrings d1, s ∉ defStrings d2) c3State.defs ∧
     (c3State.defs.map (fun d => d.id)).Nodup) :=
  ⟨rfl,
    collectRun_disjoint (fun s => s) none none
      [("doc", [{ name := "x", aliases := ["y"], id := "" }])] c3State rfl⟩

def implFrags : List Fragment := [{ content := "alpha", skip := false, position := 0 }]

theorem renderImplicit_index_witness :
    (0 : Nat) < sampleSt0.defs.length ∧
    ((∃ ref,
        ((renderImplStep "doc" 0 (fun r => r.name) (sampleSt0, implFrags) 0).1.defs.getD 0
            dummyDef).refs
          = (sampleSt0.defs.getD 0 dummyDef).refs ++ [ref] ∧
        ref.index = lastIndex (sampleSt0.defs.getD 0 dummyDef).refs + 1) ∧
      ((sampleSt0.defs.getD 0 dummyDef).refs = [] → ∀ fragIdx2 : Nat,
        ((renderImplicitReference sampleSt0 "doc"
            { fragments := implFrags, refs := [0, fragIdx2] } 0
            (fun r => r.name)).1.defs.getD 0 dummyDef).refs.map (fun r => r.index)
          = [0, 1])) :=
  ⟨by decide,
    renderImplicit_index "doc" (fun r => r.name) sampleSt0 implFrags 0 0 (by decide)⟩

theorem getReverseRefs_spec_witness :
    (∀ p ∈ sampleSt.id2def, p.2 < sampleSt.defs.length) ∧
    (∀ p ∈ sampleSt.name2def, p.2 < sampleSt.defs.length) ∧
    ((lookupIdx sampleSt (RefQuery.byId "a1") = none →
      getReverseRefs sampleSt (RefQuery.byId "a1")
        = Except.error ("Definition not found: " ++ reprQuery (RefQuery.byId "a1"))) ∧
     (∀ k, lookupIdx sampleSt (RefQuery.byId "a1") = some k →
      getReverseRefs sampleSt (RefQuery.byId "a1")
        = Except.ok ((sampleSt.defs.getD k dummyDef).refs.map
            (fun ref => ref.path ++ "#" ++ sampleSt.refIdGenerator ref)))) :=
  ⟨by decide, by decide,
    getReverseRefs_spec sampleSt (RefQuery.byId "a1") (by decide) (by decide)⟩

theorem getReverseRefs_id_name_agree_witness :
    (0 : Nat) < sampleSt.defs.length ∧
    mapGet sampleSt.id2def "a1" = some 0 ∧
    mapGet sampleSt.name2def "beta" = some 0 ∧
    getReverseRefs sampleSt (RefQuery.byId "a1")
      = getReverseRefs sampleSt (RefQuery.byName "beta") :=
  ⟨by decide, by decide, by decide,
    getReverseRefs_id_name_agree sampleSt "a1" "beta" 0 (by decide) (by decide) (by decide)⟩

def danglingFrags : List Fragment := [{ content := "[[#zzz]]", skip := false, position := 0 }]

def danglingMatch : ERMatch := { defIdx := 0, fragIdx := 0, type := ERType.explicit }

theorem explicit_dangling_witness :
    danglingMatch.type = ERType.explicit ∧
    mapGet sampleSt.id2def (erInner danglingFrags danglingMatch) = none ∧
    ((∃ e, renderERStep "doc" (fun r => r.name) (sampleSt, danglingFrags) danglingMatch
        = Except.error e) ∧
     (∀ rest : List ERMatch, ∃ e,
       renderER sampleSt "doc" { fragments := danglingFrags, refs := danglingMatch :: rest }
         (fun r => r.name) = Except.error e)) :=
  ⟨by decide, by decide,
    explicit_dangling "doc" (fun r => r.name) sampleSt danglingFrags danglingMatch
      (by decide) (by decide)⟩

def escFrags0 : List Fragment := [{ content := "[[#alpha]]", skip := false, position := 0 }]

theorem escaped_empty_refs_witness :
    sampleEsc.defIdx < sampleSt0.defs.length ∧
    sampleEsc.type = ERType.escaped ∧
    (sampleSt0.defs.getD sampleEsc.defIdx dummyDef).refs = [] ∧
    (∃ st' frags' ref,
      renderERStep "doc" (fun r => r.name) (sampleSt0, escFrags0) sampleEsc
        = Except.ok (st', frags') ∧
      (st'.defs.getD sampleEsc.defIdx dummyDef).refs = [ref] ∧
      ref.index = -1 ∧
      (∀ slug : String → String,
        (mkBiDoc slug none none).refIdGenerator ref
          = (sampleSt0.defs.getD sampleEsc.defIdx dummyDef).id ++ "-ref-0") ∧
      (∀ renderer2 : Reference → String, ∀ fragIdx2 : Nat,
        ((renderImplStep "doc" sampleEsc.defIdx renderer2 (st', frags') fragIdx2).1.defs.getD
            sampleEsc.defIdx dummyDef).refs.map (fun r => r.index) = [-1, 0])) :=
  ⟨by decide, by decide, by decide,
    escaped_empty_refs "doc" (fun r => r.name) sampleSt0 escFrags0 sampleEsc
      (by decide) (by decide) (by decide)⟩
